import Mathlib

/-!
Verification of the rollout coordination protocol of
`rocket_learn` (src/rocket_learn/rollout_generators/redis_rolloutgenerator.py).

The Redis store is embedded as an explicit `Store` record; the learner-side
`RedisRolloutGenerator` and the `RedisRolloutWorker` become pure functions on
that state.  Fallible Python operations (unpickling `None` after a failed
`LINDEX`/`GET`, `del` on a missing dict key, `int(None)`) become `Except`
values.  The external `trueskill.rate` call is kept abstract (parameter
`RateFn`); `tsRate` is a concrete executable instance used for witnesses.
-/

namespace RocketLearn

/-- A trueskill rating: mean `mu` and uncertainty `sigma`.
(`trueskill.Rating`; the library's floats are embedded as rationals). -/
structure Rating where
  mu : ℚ
  sigma : ℚ
deriving DecidableEq, Repr

/-- One dequeued item of the `rollout` queue, as produced by
`RedisRolloutWorker.run` (line 204) and unpickled by
`RedisRolloutGenerator.generate_rollouts` (line 70): a list of
(trajectory, version) pairs, the worker uuid, the worker name and the signed
match result.  Trajectories, uuids and names are opaque and embedded as `ℕ`. -/
structure MatchSubmission where
  rolloutData : List (ℕ × ℕ)
  uuid : ℕ
  name : ℕ
  result : ℤ
deriving DecidableEq, Repr

/-- The Redis keys the protocol uses (constants at lines 22-29).  A deleted /
never-written scalar key reads as `none` (Redis `GET` returns nil, `LINDEX`
out of range returns nil); lists read as (possibly empty) lists. -/
structure Store where
  qualities : List Rating
  modelLatest : Option ℕ
  versionLatest : Option ℕ
  opponentModels : List ℕ
  rollouts : List MatchSubmission
  workerIds : List ℕ
deriving DecidableEq, Repr

/-- Exceptions the generator-side processing can raise. -/
inductive GenError where
  /-- `int(self.redis.get(VERSION_LATEST))` with the key absent:
  `int(None)` raises `TypeError` (line 71). -/
  | missingVersionKey : GenError
  /-- `_unserialize(self.redis.lindex(QUALITIES, version))` with `version` out
  of range: `LINDEX` returns nil and `pickle.loads(None)` raises `TypeError`
  (line 79). -/
  | missingRating (version : ℕ) : GenError
  /-- `del versions[0]` with no key `0`: `KeyError` (line 96). -/
  | missingKeyZero : GenError
deriving DecidableEq, Repr

/-- Abstract type of the external `trueskill.rate` call on two rating groups
with a pair of ranks: `rate g1 g2 k1 k2` stands for
`rate((g1, g2), ranks=(k1, k2))` and returns the two updated groups. -/
def RateFn : Type :=
  List Rating → List Rating → ℤ → ℤ → List Rating × List Rating

/-- Modelled from the spec: the external `trueskill.rate` two-team update
("pairwise comparative skill-rating algorithm (two-team, ranked outcome)",
spec 4.1) is not part of this repository.  Rank values matter only through
their ordering (lower rank wins, equal ranks draw); the concrete unit mu
shifts stand in for the TrueSkill Gaussian formulas, which the claims never
depend on.  Used to instantiate `RateFn` in witnesses. -/
def tsRate : RateFn := fun g1 g2 k1 k2 =>
  if k1 < k2 then
    (g1.map (fun r => ⟨r.mu + 1, r.sigma⟩), g2.map (fun r => ⟨r.mu - 1, r.sigma⟩))
  else if k2 < k1 then
    (g1.map (fun r => ⟨r.mu - 1, r.sigma⟩), g2.map (fun r => ⟨r.mu + 1, r.sigma⟩))
  else (g1, g2)

/-- Lines 87-90 of `generate_rollouts`: dispatch on the sign of the result.
When `result >= 0`, `r1, r2 = rate((blue, orange), ranks=(0, result))`;
otherwise `r2, r1 = rate((orange, blue))` (with trueskill's default ranks,
which are `(0, 1)`).  Returns `(r1, r2)`, i.e. (new blue, new orange). -/
def rateDispatch (rate : RateFn) (blue orange : List Rating) (result : ℤ) :
    List Rating × List Rating :=
  if 0 ≤ result then rate blue orange 0 result
  else
    let p := rate orange blue 0 1
    (p.2, p.1)

/-- The per-seat rating lookups of the loop at lines 78-85:
`_unserialize(self.redis.lindex(QUALITIES, version))` for each
`(rollout, version)` of the submission, in submission order; the first
out-of-range version raises (nil unpickling). -/
def lookupRatings (qs : List Rating) : List (ℕ × ℕ) → Except GenError (List Rating)
  | [] => .ok []
  | (_, v) :: rest =>
    match qs[v]? with
    | none => .error (.missingRating v)
    | some r =>
      match lookupRatings qs rest with
      | .error e => .error e
      | .ok rs => .ok (r :: rs)

/-- One step of `versions.setdefault(version, []).append(rating)` (line 94):
the grouped map is a key-ordered association list (Python dicts preserve
insertion order and have unique keys). -/
def addToGroups (groups : List (ℕ × List Rating)) (v : ℕ) (r : Rating) :
    List (ℕ × List Rating) :=
  match groups with
  | [] => [(v, [r])]
  | (v', rs) :: rest =>
    if v' = v then (v', rs ++ [r]) :: rest
    else (v', rs) :: addToGroups rest v r

/-- The grouping loop of lines 92-94 over `zip(r1 + r2, rollout_data)`. -/
def groupByVersion (pairs : List (Rating × (ℕ × ℕ))) : List (ℕ × List Rating) :=
  pairs.foldl (fun gs p => addToGroups gs p.2.2 p.1) []

/-- `del versions[0]` (line 96): raises `KeyError` (here `none`) when key `0`
is absent, otherwise removes the unique entry with key `0` (dict keys are
unique, so deleting the entry is filtering key `0` out). -/
def delKeyZero (groups : List (ℕ × List Rating)) : Option (List (ℕ × List Rating)) :=
  if groups.any (fun p => p.1 = 0) then some (groups.filter (fun p => p.1 ≠ 0))
  else none

/-- Lines 98-99: mu and sigma averaged independently over a version's group. -/
def avgRating (rs : List Rating) : Rating :=
  ⟨(rs.map Rating.mu).sum / rs.length, (rs.map Rating.sigma).sum / rs.length⟩

/-- The write-back loop of lines 97-100: `self.redis.lset(QUALITIES, version,
...)` for each grouped version (all written versions were successfully read at
lines 78-85, so they are in range and `LSET` replaces in place). -/
def writeBackList (qs : List Rating) (wb : List (ℕ × Rating)) : List Rating :=
  wb.foldl (fun acc p => acc.set p.1 p.2) qs

/-- Lines 75-90 combined: the submission's seats are split into blue (the
first `sum(divmod(len, 2)) = ceil(len/2)` seats) and orange (the rest), rated
through `rateDispatch`, and re-concatenated as `r1 + r2` (line 93). -/
def newRatingsOf (rate : RateFn) (bp : ℕ) (result : ℤ) (ratings : List Rating) :
    List Rating :=
  let rr := rateDispatch rate (ratings.take bp) (ratings.drop bp) result
  rr.1 ++ rr.2

/-- What processing one submission produces: the `qualities` list after the
write-backs, the write-back map itself (version, averaged rating), and the
trajectories passed to `yield from rollouts` (line 102). -/
structure SubResult where
  newQualities : List Rating
  writeback : List (ℕ × Rating)
  yielded : List ℕ
deriving DecidableEq, Repr

/-- One iteration of the `while True` loop of
`RedisRolloutGenerator.generate_rollouts` (lines 67-102), after the blocking
dequeue: read `VERSION_LATEST` once, look up every seat's rating, collect the
latest-version trajectories (line 80-81, in submission order), rate the two
teams, group the new ratings by version, delete key 0, average and write back,
and yield.  Any raised exception aborts with no write-back and no yield. -/
def processSubmission (rate : RateFn) (qs : List Rating) (latestOpt : Option ℕ)
    (sub : MatchSubmission) : Except GenError SubResult :=
  match latestOpt with
  | none => .error .missingVersionKey
  | some latest =>
    match lookupRatings qs sub.rolloutData with
    | .error e => .error e
    | .ok ratings =>
      let bp := sub.rolloutData.length / 2 + sub.rolloutData.length % 2
      let groups := groupByVersion ((newRatingsOf rate bp sub.result ratings).zip sub.rolloutData)
      match delKeyZero groups with
      | none => .error .missingKeyZero
      | some kept =>
        let wb := kept.map (fun p => (p.1, avgRating p.2))
        .ok ⟨writeBackList qs wb, wb,
             (sub.rolloutData.filter (fun p => p.2 = latest)).map Prod.fst⟩

/-- The generator loop run over a whole queue of submissions.  In the source
an exception raised while processing one submission propagates out of the
generator: no later submission is processed and nothing further is yielded.
(`VERSION_LATEST` is re-read each iteration but nothing in `generate_rollouts`
writes it, so it is a loop constant here.) -/
def processAll (rate : RateFn) (qs : List Rating) (latestOpt : Option ℕ) :
    List MatchSubmission → Except GenError (List Rating × List ℕ)
  | [] => .ok (qs, [])
  | sub :: rest =>
    match processSubmission rate qs latestOpt sub with
    | .error e => .error e
    | .ok r =>
      match processAll rate r.newQualities latestOpt rest with
      | .error e => .error e
      | .ok (qs', ys) => .ok (qs', r.yielded ++ ys)

/-- The store with every key of `_ALL` deleted. -/
def emptyStore : Store := ⟨[], none, none, [], [], []⟩

/-- Learner-side generator state: the in-process `n_updates` counter and
`save_every` (lines 55-56) together with the shared store. -/
structure GenState where
  nUpdates : ℕ
  saveEvery : ℕ
  store : Store
deriving DecidableEq, Repr

/-- `RedisRolloutGenerator.__init__` (lines 52-64): `n_updates = 0` and, when
`clear` holds, every key of `_ALL` is deleted. -/
def initGenerator (st : Store) (saveEvery : ℕ) (clear : Bool) : GenState :=
  ⟨0, saveEvery, if clear then emptyStore else st⟩

/-- trueskill's default sigma: `Rating(mu)` with one argument leaves
`sigma = 25/3`. -/
def defaultSigma : ℚ := 25 / 3

/-- `RedisRolloutGenerator._add_opponent` (lines 104-117): `RPUSH` the agent
blob onto `OPPONENT_MODELS`, then seed its quality from the last stored
rating's mu (`Rating(ratings[-1].mu)`) or `Rating(0)` when `QUALITIES` is
empty, and `RPUSH` it onto `QUALITIES`.  (The `self.logger.log(...)` call is
external I/O and does not touch the store.) -/
def addOpponent (st : Store) (agent : ℕ) : Store :=
  let st1 := { st with opponentModels := st.opponentModels ++ [agent] }
  let quality : Rating :=
    match st1.qualities.getLast? with
    | some r => ⟨r.mu, defaultSigma⟩
    | none => ⟨0, defaultSigma⟩
  { st1 with qualities := st1.qualities ++ [quality] }

/-- `RedisRolloutGenerator.update_parameters` (lines 119-132): `SET` the new
blob as `MODEL_LATEST`, `SET` `VERSION_LATEST` to the current `n_updates`,
call `_add_opponent` when `n_updates % save_every == 0`, then increment
`n_updates`. -/
def update_parameters (g : GenState) (newParams : ℕ) : GenState :=
  let st0 := { g.store with modelLatest := some newParams,
                            versionLatest := some g.nUpdates }
  let st1 := if g.nUpdates % g.saveEvery = 0 then addOpponent st0 newParams else st0
  ⟨g.nUpdates + 1, g.saveEvery, st1⟩

/-- A sequence of `update_parameters` calls, one per listed blob. -/
def updateRun (g : GenState) (ps : List ℕ) : GenState :=
  ps.foldl update_parameters g

/-- Line 182 of `RedisRolloutWorker.run`:
`adjusted_prob = (self.current_version_prob * self.n_agents - 1) / (self.n_agents - 1)`. -/
def adjusted_prob (p : ℚ) (n : ℕ) : ℚ := (p * n - 1) / ((n : ℚ) - 1)

/-- Which seats of the `agents` list (before the shuffle at line 196) play the
current model: the seat appended at line 178 always does, and each of the
`n - 1` seats of the loop at lines 183-194 does exactly when its uniform draw
`np.random.random()` is below `adjusted_prob` (line 184).  `draws` are the
`n - 1` uniform draws. -/
def seatIsCurrent (p : ℚ) (n : ℕ) (draws : List ℚ) : List Bool :=
  true :: draws.map (fun u => decide (u < adjusted_prob p n))

/-- All Boolean outcome vectors of `k` independent draws. -/
def boolVecs : ℕ → List (List Bool)
  | 0 => [[]]
  | k + 1 => (boolVecs k).map (true :: ·) ++ (boolVecs k).map (false :: ·)

/-- Probability of one outcome vector when each coordinate is an independent
Bernoulli of parameter `q` (the chance that a uniform draw is below `q`). -/
def vecWeight (q : ℚ) : List Bool → ℚ
  | [] => 1
  | b :: bs => (if b then q else 1 - q) * vecWeight q bs

/-- Expected number of seats playing the current model in one match of `n`
seats: one guaranteed seat plus `n - 1` independent Bernoulli seats of
parameter `adjusted_prob p n`. -/
def expectedCurrentSeats (p : ℚ) (n : ℕ) : ℚ :=
  ((boolVecs (n - 1)).map
    (fun bs => vecWeight (adjusted_prob p n) bs * ((true :: bs).count true : ℚ))).sum

/-- A computable positive stand-in for the exponential on `ℚ`, used by the
spec-modelled `softmax`. -/
def expQ (x : ℚ) : ℚ := if 0 ≤ x then 1 + x else 1 / (1 - x)

/-- A fixed positive rational standing in for `np.log(10)` (line 158). -/
def log10Q : ℚ := 2302585 / 1000000

/-- Modelled from the spec: `softmax` lives in `rocket_learn.utils.util`,
which is not under src/.  Per spec 4.2 it maps the score vector to a
same-length probability vector proportional to exponentials of the scores. -/
def softmax (xs : List ℚ) : List ℚ :=
  let es := xs.map expQ
  es.map (fun e => e / es.sum)

/-- Index of the half-open cumulative-probability interval containing the
uniform draw `u` (inverse-CDF sampling). -/
def cdfIndex : List ℚ → ℚ → ℕ
  | [], _ => 0
  | p :: ps, u => if u < p then 0 else cdfIndex ps (u - p) + 1

/-- `np.random.choice(len(probs), p=probs)` (line 159): raises `ValueError`
when `len(probs) == 0` (modelled as `none`); otherwise returns an index in
`[0, len(probs))`, modelled as inverse-CDF sampling of the draw `u`, clamped
into range. -/
def npChoice (probs : List ℚ) (u : ℚ) : Option ℕ :=
  if probs.isEmpty then none
  else some (min (cdfIndex probs u) (probs.length - 1))

/-- `RedisRolloutWorker._get_opponent_index` (lines 154-160): softmax over the
stored qualities' mu divided by `np.log(10)`, then `np.random.choice` over the
resulting distribution; returns the index and its probability. -/
def get_opponent_index (qualities : List Rating) (u : ℚ) : Option (ℕ × ℚ) :=
  let probs := softmax (qualities.map (fun r => r.mu / log10Q))
  match npChoice probs u with
  | none => none
  | some i => some (i, probs.getD i 0)

/-- Exceptions the worker can raise. -/
inductive WorkerError where
  /-- `_unserialize(self.redis.get(MODEL_LATEST))` with the key absent:
  `pickle.loads(None)` raises `TypeError` (line 141). -/
  | missingModel : WorkerError
  /-- `int(latest_version)` with `VERSION_LATEST` absent (line 171). -/
  | missingVersion : WorkerError
deriving DecidableEq, Repr

/-- Worker-side in-process state set up by `RedisRolloutWorker.__init__`. -/
structure WorkerState where
  currentAgent : ℕ
  currentVersionProb : ℚ
  nAgents : ℕ
deriving DecidableEq, Repr

/-- `RedisRolloutWorker.__init__` (lines 136-152): unpickle `MODEL_LATEST`
(raising when the key is absent, line 141), then `RPUSH` the worker uuid onto
`WORKER_IDS` (line 146). -/
def workerInit (st : Store) (uuid : ℕ) (prob : ℚ) (nAgents : ℕ) :
    Except WorkerError (WorkerState × Store) :=
  match st.modelLatest with
  | none => .error .missingModel
  | some m =>
    .ok (⟨m, prob, nAgents⟩, { st with workerIds := st.workerIds ++ [uuid] })

/-- Outcome of the poll at the top of one `run` iteration. -/
inductive PollStep where
  /-- `time.sleep(1); continue` (lines 168-169): fixed one-second delay, then
  retry. -/
  | wait : PollStep
  /-- Model and version both read; the iteration proceeds to the match. -/
  | proceed (agent : ℕ) (latestVersion : ℕ) : PollStep
deriving DecidableEq, Repr

/-- Lines 165-171 of `RedisRolloutWorker.run`: read `MODEL_LATEST` and
`VERSION_LATEST`; when the model blob is absent, sleep for the fixed delay and
retry; otherwise unpickle it and convert the version (which raises when
`VERSION_LATEST` is absent). -/
def runPoll (st : Store) : Except WorkerError PollStep :=
  match st.modelLatest with
  | none => .ok .wait
  | some m =>
    match st.versionLatest with
    | none => .error .missingVersion
    | some v => .ok (.proceed m v)

/-! ### Generator-state lemmas -/

lemma addOpponent_opp_len (st : Store) (a : ℕ) :
    (addOpponent st a).opponentModels.length = st.opponentModels.length + 1 := by
  simp [addOpponent]

lemma addOpponent_qual_len (st : Store) (a : ℕ) :
    (addOpponent st a).qualities.length = st.qualities.length + 1 := by
  simp [addOpponent]

lemma update_parameters_opp_len (g : GenState) (q : ℕ) :
    (update_parameters g q).store.opponentModels.length
      = g.store.opponentModels.length
        + if g.nUpdates % g.saveEvery = 0 then 1 else 0 := by
  simp only [update_parameters]
  split_ifs with h <;> simp [addOpponent_opp_len]

lemma update_parameters_qual_len (g : GenState) (q : ℕ) :
    (update_parameters g q).store.qualities.length
      = g.store.qualities.length
        + if g.nUpdates % g.saveEvery = 0 then 1 else 0 := by
  simp only [update_parameters]
  split_ifs with h <;> simp [addOpponent_qual_len]

lemma update_parameters_nUpdates (g : GenState) (q : ℕ) :
    (update_parameters g q).nUpdates = g.nUpdates + 1 := rfl

lemma update_parameters_saveEvery (g : GenState) (q : ℕ) :
    (update_parameters g q).saveEvery = g.saveEvery := rfl

lemma updateRun_nUpdates : ∀ (ps : List ℕ) (g : GenState),
    (updateRun g ps).nUpdates = g.nUpdates + ps.length := by
  intro ps
  induction ps with
  | nil => intro g; simp [updateRun]
  | cons q ps ih =>
    intro g
    have h1 : updateRun g (q :: ps) = updateRun (update_parameters g q) ps := rfl
    rw [h1, ih, update_parameters_nUpdates]
    simp; omega

lemma updateRun_saveEvery : ∀ (ps : List ℕ) (g : GenState),
    (updateRun g ps).saveEvery = g.saveEvery := by
  intro ps
  induction ps with
  | nil => intro g; rfl
  | cons q ps ih =>
    intro g
    have h1 : updateRun g (q :: ps) = updateRun (update_parameters g q) ps := rfl
    rw [h1, ih, update_parameters_saveEvery]

lemma updateRun_opp_len : ∀ (ps : List ℕ) (g : GenState),
    (updateRun g ps).store.opponentModels.length
      = g.store.opponentModels.length
        + (List.range ps.length).countP
            (fun i => (g.nUpdates + i) % g.saveEvery = 0) := by
  intro ps
  induction ps with
  | nil => intro g; simp [updateRun]
  | cons q ps ih =>
    intro g
    have h1 : updateRun g (q :: ps) = updateRun (update_parameters g q) ps := rfl
    rw [h1, ih, update_parameters_opp_len, update_parameters_nUpdates,
        update_parameters_saveEvery]
    have h2 : List.range (q :: ps).length = 0 :: (List.range ps.length).map Nat.succ := by
      simp [List.range_succ_eq_map]
    rw [h2, List.countP_cons, List.countP_map]
    have h3 : ((fun i => decide ((g.nUpdates + i) % g.saveEvery = 0)) ∘ Nat.succ)
        = fun i => decide ((g.nUpdates + 1 + i) % g.saveEvery = 0) := by
      funext i
      have h4 : g.nUpdates + (i + 1) = g.nUpdates + 1 + i := by omega
      simp [Function.comp, Nat.succ_eq_add_one, h4]
    rw [h3]
    simp only [Nat.add_zero, decide_eq_true_eq]
    split_ifs with h <;> ring

lemma updateRun_qual_len : ∀ (ps : List ℕ) (g : GenState),
    (updateRun g ps).store.qualities.length
      = g.store.qualities.length
        + (List.range ps.length).countP
            (fun i => (g.nUpdates + i) % g.saveEvery = 0) := by
  intro ps
  induction ps with
  | nil => intro g; simp [updateRun]
  | cons q ps ih =>
    intro g
    have h1 : updateRun g (q :: ps) = updateRun (update_parameters g q) ps := rfl
    rw [h1, ih, update_parameters_qual_len, update_parameters_nUpdates,
        update_parameters_saveEvery]
    have h2 : List.range (q :: ps).length = 0 :: (List.range ps.length).map Nat.succ := by
      simp [List.range_succ_eq_map]
    rw [h2, List.countP_cons, List.countP_map]
    have h3 : ((fun i => decide ((g.nUpdates + i) % g.saveEvery = 0)) ∘ Nat.succ)
        = fun i => decide ((g.nUpdates + 1 + i) % g.saveEvery = 0) := by
      funext i
      have h4 : g.nUpdates + (i + 1) = g.nUpdates + 1 + i := by omega
      simp [Function.comp, Nat.succ_eq_add_one, h4]
    rw [h3]
    simp only [Nat.add_zero, decide_eq_true_eq]
    split_ifs with h <;> ring

/-- C5: with save_every = 10, exactly every 10th call to update_parameters
(positions counted from 0, the initial value of the `n_updates` counter)
appends one snapshot to the opponent pool and one rating to the rating list,
and intermediate calls do not grow the pool: after the calls `ps` the next
call grows the pool exactly when its position `ps.length` is a multiple of
10, the pool length equals the number of positions so far that are multiples
of 10, and the rating list has grown in lockstep. -/
theorem C5_snapshot_cadence (st : Store) (ps : List ℕ) (q : ℕ) :
    ((update_parameters (updateRun (initGenerator st 10 true) ps) q).store.opponentModels.length
        = (updateRun (initGenerator st 10 true) ps).store.opponentModels.length
          + if ps.length % 10 = 0 then 1 else 0)
    ∧ (updateRun (initGenerator st 10 true) ps).store.opponentModels.length
        = ((List.range ps.length).filter (fun i => i % 10 = 0)).length
    ∧ (updateRun (initGenerator st 10 true) ps).store.qualities.length
        = (updateRun (initGenerator st 10 true) ps).store.opponentModels.length := by
  refine ⟨?_, ?_, ?_⟩
  · rw [update_parameters_opp_len, updateRun_nUpdates, updateRun_saveEvery]
    simp [initGenerator]
  · rw [updateRun_opp_len, ← List.countP_eq_length_filter]
    simp [initGenerator, emptyStore]
  · rw [updateRun_opp_len, updateRun_qual_len]
    simp [initGenerator, emptyStore]

/-- C8 counterexample: immediately after construction with clear, the stored
rating list and the opponent pool are both empty, so the claimed invariant
`|qualities| = 1 + |opponent pool|` fails (0 is not 1). -/
theorem C8_counterexample :
    ¬ ((initGenerator ⟨[⟨1, 1⟩], some 5, some 3, [9], [], [7]⟩ 10 true).store.qualities.length
        = 1 + (initGenerator ⟨[⟨1, 1⟩], some 5, some 3, [9], [], [7]⟩ 10 true).store.opponentModels.length) := by
  decide

/-- C8 amended: after every state-changing generator operation (construction
with clear, `_add_opponent`, `update_parameters`) the stored rating list
length equals the opponent pool length (both lists grow strictly in lockstep;
no separate baseline entry exists). -/
theorem C8_length_lockstep :
    (∀ (st : Store) (k : ℕ),
      (initGenerator st k true).store.qualities.length
        = (initGenerator st k true).store.opponentModels.length)
    ∧ (∀ (st : Store) (a : ℕ), st.qualities.length = st.opponentModels.length →
        (addOpponent st a).qualities.length = (addOpponent st a).opponentModels.length)
    ∧ (∀ (g : GenState) (q : ℕ), g.store.qualities.length = g.store.opponentModels.length →
        (update_parameters g q).store.qualities.length
          = (update_parameters g q).store.opponentModels.length) := by
  refine ⟨?_, ?_, ?_⟩
  · intro st k; simp [initGenerator, emptyStore]
  · intro st a h; rw [addOpponent_qual_len, addOpponent_opp_len, h]
  · intro g q h; rw [update_parameters_qual_len, update_parameters_opp_len, h]

/-- Witness for C8's amended theorem at concrete inputs. -/
theorem C8_length_lockstep_witness :
    (addOpponent emptyStore 5).qualities.length
      = (addOpponent emptyStore 5).opponentModels.length
    ∧ (update_parameters ⟨0, 10, emptyStore⟩ 7).store.qualities.length
      = (update_parameters ⟨0, 10, emptyStore⟩ 7).store.opponentModels.length :=
  ⟨C8_length_lockstep.2.1 emptyStore 5 rfl,
   C8_length_lockstep.2.2 ⟨0, 10, emptyStore⟩ 7 rfl⟩

/-- C10 counterexample: with no model published yet, the worker's very first
model fetch (in `__init__`, before the match loop) unpickles a nil `GET` and
raises, i.e. it surfaces an error instead of backing off and retrying. -/
theorem C10_counterexample :
    workerInit emptyStore 0 (9 / 10) 2 = .error .missingModel := rfl

/-- C10 amended: inside `run`, every poll that finds the latest model blob
absent backs off with the fixed delay and retries, never surfacing an error;
but the constructor's initial model fetch is unguarded and fails whenever the
blob is absent. -/
theorem C10_wait_retry :
    (∀ st : Store, st.modelLatest = none → runPoll st = .ok .wait)
    ∧ (∀ (st : Store) (uuid : ℕ) (prob : ℚ) (nA : ℕ), st.modelLatest = none →
        workerInit st uuid prob nA = .error .missingModel) := by
  constructor
  · intro st h; simp [runPoll, h]
  · intro st uuid prob nA h; simp [workerInit, h]

/-- Witness for C10's amended theorem at a concrete store. -/
theorem C10_wait_retry_witness :
    runPoll ⟨[⟨1, 1⟩], none, some 0, [4], [], [3]⟩ = .ok .wait
    ∧ workerInit ⟨[⟨1, 1⟩], none, some 0, [4], [], [3]⟩ 7 (1 / 2) 3
        = .error .missingModel :=
  ⟨C10_wait_retry.1 ⟨[⟨1, 1⟩], none, some 0, [4], [], [3]⟩ rfl,
   C10_wait_retry.2 ⟨[⟨1, 1⟩], none, some 0, [4], [], [3]⟩ 7 (1 / 2) 3 rfl⟩

/-! ### Opponent selection (C9) -/

lemma npChoice_some_lt (probs : List ℚ) (u : ℚ) (h : probs ≠ []) :
    ∃ i, npChoice probs u = some i ∧ i < probs.length := by
  cases probs with
  | nil => exact absurd rfl h
  | cons a as =>
    refine ⟨min (cdfIndex (a :: as) u) ((a :: as).length - 1), ?_, ?_⟩
    · simp [npChoice]
    · have hlt : (a :: as).length - 1 < (a :: as).length := by simp
      exact lt_of_le_of_lt (min_le_right _ _) hlt

/-- C9 counterexample: with an empty rating list (no opponents published),
`_get_opponent_index` fails — `np.random.choice(0, p=[])` raises `ValueError`
— instead of falling back to self-play; no fallback path exists in the code
(`run` calls `_get_opponent_index` whenever a seat's draw is not current,
regardless of the pool). -/
theorem C9_counterexample : get_opponent_index [] (1 / 2) = none := rfl

/-- C9 amended: opponent selection fails on an empty pool (there is no
self-play fallback); on every non-empty rating list it succeeds and the
selected index is in range of the stored rating list. -/
theorem C9_in_range (qualities : List Rating) (u : ℚ) (h : qualities ≠ []) :
    ∃ i pr, get_opponent_index qualities u = some (i, pr) ∧ i < qualities.length := by
  have hlen : (softmax (qualities.map (fun r => r.mu / log10Q))).length
      = qualities.length := by
    simp [softmax]
  have hnil : softmax (qualities.map (fun r => r.mu / log10Q)) ≠ [] := by
    intro h0
    rw [h0] at hlen
    exact h (List.length_eq_zero.mp hlen.symm)
  obtain ⟨i, hch, hi⟩ := npChoice_some_lt _ u hnil
  refine ⟨i, (softmax (qualities.map (fun r => r.mu / log10Q))).getD i 0, ?_, ?_⟩
  · simp [get_opponent_index, hch]
  · rw [← hlen]; exact hi

/-- Witness for C9's amended theorem on a one-element rating list. -/
theorem C9_in_range_witness :
    ∃ i pr, get_opponent_index [⟨0, 1⟩] (1 / 2) = some (i, pr)
      ∧ i < ([⟨0, 1⟩] : List Rating).length :=
  C9_in_range [⟨0, 1⟩] (1 / 2) (by simp)

/-! ### Sign symmetry of the rating dispatch (C3) -/

lemma tsRate_ord (g1 g2 : List Rating) (a b c d : ℤ)
    (h1 : a < b ↔ c < d) (h2 : b < a ↔ d < c) :
    tsRate g1 g2 a b = tsRate g1 g2 c d := by
  simp only [tsRate]
  by_cases hab : a < b
  · rw [if_pos hab, if_pos (h1.mp hab)]
  · rw [if_neg hab, if_neg (fun hcd => hab (h1.mpr hcd))]
    by_cases hba : b < a
    · rw [if_pos hba, if_pos (h2.mp hba)]
    · rw [if_neg hba, if_neg (fun hdc => hba (h2.mpr hdc))]

/-- C3: for any rating function that depends on the two ranks only through
their ordering (which is how trueskill treats ranks), the code's dispatch is
sign-symmetric: when `result >= 0` the blue team is passed at rank 0 and
orange at rank `result`; when `result < 0` the produced update equals the
nonnegative-result update applied to `(orange, blue, -result)` with the two
components swapped back. -/
theorem C3_sign_symmetric (rate : RateFn)
    (h : ∀ (g1 g2 : List Rating) (a b c d : ℤ),
      (a < b ↔ c < d) → (b < a ↔ d < c) → rate g1 g2 a b = rate g1 g2 c d)
    (blue orange : List Rating) :
    (∀ result : ℤ, 0 ≤ result →
        rateDispatch rate blue orange result = rate blue orange 0 result)
    ∧ (∀ result : ℤ, result < 0 →
        rateDispatch rate blue orange result
          = (rateDispatch rate orange blue (-result)).swap) := by
  constructor
  · intro result hres
    simp [rateDispatch, hres]
  · intro result hres
    have hneg : ¬ 0 ≤ result := not_le.mpr hres
    have hpos : (0 : ℤ) ≤ -result := by omega
    have h01 : (0 : ℤ) < 1 ↔ (0 : ℤ) < -result := by
      constructor <;> intro <;> omega
    have h10 : (1 : ℤ) < 0 ↔ (-result : ℤ) < 0 := by
      constructor <;> intro <;> omega
    simp only [rateDispatch, if_neg hneg, if_pos hpos]
    rw [h orange blue 0 1 0 (-result) h01 h10]
    rfl

/-- Witness for C3 at the concrete rate model `tsRate` and `result = -2`. -/
theorem C3_sign_symmetric_witness :
    rateDispatch tsRate [⟨0, 1⟩] [⟨5, 2⟩] (-2)
      = (rateDispatch tsRate [⟨5, 2⟩] [⟨0, 1⟩] 2).swap :=
  (C3_sign_symmetric tsRate
    (fun g1 g2 a b c d h1 h2 => tsRate_ord g1 g2 a b c d h1 h2)
    [⟨0, 1⟩] [⟨5, 2⟩]).2 (-2) (by decide)

/-! ### Adjusted current-model probability (C4) -/

lemma sum_map_mul_const (l : List (List Bool)) (a : ℚ) (f : List Bool → ℚ) :
    (l.map (fun x => a * f x)).sum = a * (l.map f).sum := by
  induction l with
  | nil => simp
  | cons x xs ih => simp [ih, mul_add]

lemma sum_map_add_fun (l : List (List Bool)) (f g : List Bool → ℚ) :
    (l.map (fun x => f x + g x)).sum = (l.map f).sum + (l.map g).sum := by
  induction l with
  | nil => simp
  | cons x xs ih =>
    simp only [List.map_cons, List.sum_cons, ih]
    ring

lemma boolVecs_weight_sum (q : ℚ) : ∀ k, ((boolVecs k).map (vecWeight q)).sum = 1 := by
  intro k
  induction k with
  | zero => simp [boolVecs, vecWeight]
  | succ k ih =>
    simp only [boolVecs, List.map_append, List.sum_append, List.map_map]
    have ht : vecWeight q ∘ (fun bs => true :: bs)
        = fun bs => q * vecWeight q bs := by
      funext bs; simp [vecWeight]
    have hf : vecWeight q ∘ (fun bs => false :: bs)
        = fun bs => (1 - q) * vecWeight q bs := by
      funext bs; simp [vecWeight]
    rw [ht, hf, sum_map_mul_const, sum_map_mul_const, ih]
    ring

lemma boolVecs_count_sum (q : ℚ) : ∀ k,
    ((boolVecs k).map (fun bs => vecWeight q bs * (bs.count true : ℚ))).sum
      = k * q := by
  intro k
  induction k with
  | zero => simp [boolVecs, vecWeight]
  | succ k ih =>
    simp only [boolVecs, List.map_append, List.sum_append, List.map_map]
    have ht : (fun bs => vecWeight q bs * (bs.count true : ℚ)) ∘ (fun bs => true :: bs)
        = fun bs => q * (vecWeight q bs * (bs.count true : ℚ)) + q * vecWeight q bs := by
      funext bs
      simp only [Function.comp, vecWeight, List.count_cons, if_pos, beq_self_eq_true]
      push_cast
      ring
    have hf : (fun bs => vecWeight q bs * (bs.count true : ℚ)) ∘ (fun bs => false :: bs)
        = fun bs => (1 - q) * (vecWeight q bs * (bs.count true : ℚ)) := by
      funext bs
      simp only [Function.comp, vecWeight, List.count_cons]
      norm_num
      ring
    rw [ht, hf, sum_map_add_fun, sum_map_mul_const, sum_map_mul_const,
        sum_map_mul_const, ih, boolVecs_weight_sum]
    push_cast
    ring

lemma expectedCurrentSeats_eq (p : ℚ) (n : ℕ) :
    expectedCurrentSeats p n = 1 + ((n - 1 : ℕ) : ℚ) * adjusted_prob p n := by
  unfold expectedCurrentSeats
  have hc : (fun bs => vecWeight (adjusted_prob p n) bs * (((true :: bs).count true : ℕ) : ℚ))
      = fun bs => vecWeight (adjusted_prob p n) bs * ((bs.count true : ℕ) : ℚ)
          + vecWeight (adjusted_prob p n) bs := by
    funext bs
    simp only [List.count_cons, beq_self_eq_true, if_pos]
    push_cast
    ring
  rw [hc, sum_map_add_fun, boolVecs_count_sum, boolVecs_weight_sum]
  ring

/-- C4: for every seat count `n >= 2` and probability `p` whose adjusted
probability `(p*n - 1)/(n - 1)` lies in `[0, 1]`, the worker fields exactly
one guaranteed current seat (the head of the seat list) plus `n - 1`
independent Bernoulli seats of the adjusted probability, and the expected
number of current-model seats is exactly `n * p`, so the expected fraction is
exactly `p`. -/
theorem C4_expected_fraction (p : ℚ) (n : ℕ) (h2 : 2 ≤ n)
    (h0 : 0 ≤ adjusted_prob p n) (h1 : adjusted_prob p n ≤ 1) :
    expectedCurrentSeats p n = n * p
    ∧ expectedCurrentSeats p n / n = p
    ∧ ∀ draws : List ℚ, (seatIsCurrent p n draws).count true
        = 1 + (draws.map (fun u => decide (u < adjusted_prob p n))).count true := by
  have hcast : ((n - 1 : ℕ) : ℚ) = (n : ℚ) - 1 := by
    have h1n : 1 ≤ n := le_trans (by norm_num) h2
    push_cast [Nat.cast_sub h1n]
    ring
  have h2q : (2 : ℚ) ≤ (n : ℚ) := by exact_mod_cast h2
  have hne : (n : ℚ) - 1 ≠ 0 := by intro hx; linarith
  have hnn : (n : ℚ) ≠ 0 := by intro hx; rw [hx] at h2q; norm_num at h2q
  have hmain : expectedCurrentSeats p n = n * p := by
    rw [expectedCurrentSeats_eq, hcast, adjusted_prob]
    field_simp
    ring
  refine ⟨hmain, ?_, ?_⟩
  · rw [hmain]
    field_simp
  · intro draws
    simp [seatIsCurrent, List.count_cons]
    omega

lemma adjusted_prob_example_nonneg : 0 ≤ adjusted_prob (9 / 10) 3 := by
  norm_num [adjusted_prob]

lemma adjusted_prob_example_le_one : adjusted_prob (9 / 10) 3 ≤ 1 := by
  norm_num [adjusted_prob]

/-- Witness for C4 at the spec's example: 3 seats and p_current = 0.9. -/
theorem C4_expected_fraction_witness :
    expectedCurrentSeats (9 / 10) 3 = ((3 : ℕ) : ℚ) * (9 / 10)
    ∧ expectedCurrentSeats (9 / 10) 3 / ((3 : ℕ) : ℚ) = 9 / 10 :=
  ⟨(C4_expected_fraction (9 / 10) 3 (by decide) adjusted_prob_example_nonneg
      adjusted_prob_example_le_one).1,
   (C4_expected_fraction (9 / 10) 3 (by decide) adjusted_prob_example_nonneg
      adjusted_prob_example_le_one).2.1⟩

/-! ### Rating lookup, grouping and write-back lemmas -/

lemma lookupRatings_error_of_oob : ∀ (qs : List Rating) (data : List (ℕ × ℕ)),
    (∃ p ∈ data, qs.length ≤ p.2) →
    ∃ v, qs.length ≤ v ∧ lookupRatings qs data = .error (.missingRating v) := by
  intro qs data
  induction data with
  | nil => intro h; simp at h
  | cons q rest ih =>
    intro h
    obtain ⟨r, v⟩ := q
    by_cases hv : v < qs.length
    · obtain ⟨p, hp, hple⟩ := h
      rcases List.mem_cons.mp hp with heq | hmem
      · rw [heq] at hple
        exact absurd hv (not_lt.mpr hple)
      · obtain ⟨v', hv', herr⟩ := ih ⟨p, hmem, hple⟩
        refine ⟨v', hv', ?_⟩
        simp [lookupRatings, List.getElem?_eq_getElem hv, herr]
    · refine ⟨v, not_lt.mp hv, ?_⟩
      simp [lookupRatings, List.getElem?_eq_none (not_lt.mp hv)]

lemma lookupRatings_ok_of_inbounds : ∀ (qs : List Rating) (data : List (ℕ × ℕ)),
    (∀ p ∈ data, p.2 < qs.length) →
    ∃ rs, lookupRatings qs data = .ok rs ∧ rs.length = data.length := by
  intro qs data
  induction data with
  | nil => intro h; exact ⟨[], rfl, rfl⟩
  | cons q rest ih =>
    intro h
    obtain ⟨r, v⟩ := q
    have hv : v < qs.length := h (r, v) (List.mem_cons_self _ _)
    obtain ⟨rs, hok, hlen⟩ := ih (fun p hp => h p (List.mem_cons_of_mem _ hp))
    refine ⟨qs[v] :: rs, ?_, ?_⟩
    · simp [lookupRatings, List.getElem?_eq_getElem hv, hok]
    · simp [hlen]

lemma addToGroups_keys (gs : List (ℕ × List Rating)) (v : ℕ) (r : Rating) (x : ℕ) :
    x ∈ (addToGroups gs v r).map Prod.fst ↔ x ∈ gs.map Prod.fst ∨ x = v := by
  induction gs with
  | nil => simp [addToGroups]
  | cons g rest ih =>
    obtain ⟨v', rs⟩ := g
    by_cases h : v' = v
    · subst h
      simp [addToGroups]
      tauto
    · simp [addToGroups, h, ih]
      tauto

lemma foldl_addToGroups_keys :
    ∀ (pairs : List (Rating × (ℕ × ℕ))) (gs : List (ℕ × List Rating)) (x : ℕ),
    x ∈ (pairs.foldl (fun a p => addToGroups a p.2.2 p.1) gs).map Prod.fst
      ↔ x ∈ gs.map Prod.fst ∨ x ∈ pairs.map (fun p => p.2.2) := by
  intro pairs
  induction pairs with
  | nil => intro gs x; simp
  | cons q rest ih =>
    intro gs x
    simp only [List.foldl_cons, List.map_cons, List.mem_cons]
    rw [ih, addToGroups_keys]
    tauto

lemma groupByVersion_keys (pairs : List (Rating × (ℕ × ℕ))) (x : ℕ) :
    x ∈ (groupByVersion pairs).map Prod.fst ↔ x ∈ pairs.map (fun p => p.2.2) := by
  unfold groupByVersion
  rw [foldl_addToGroups_keys]
  simp

lemma zip_snd_eq : ∀ (a : List Rating) (b : List (ℕ × ℕ)), a.length = b.length →
    (a.zip b).map (fun p => p.2.2) = b.map Prod.snd := by
  intro a
  induction a with
  | nil =>
    intro b h
    have hb : b = [] := List.length_eq_zero.mp h.symm
    subst hb
    rfl
  | cons x xs ih =>
    intro b h
    cases b with
    | nil => simp at h
    | cons y ys =>
      simp only [List.zip_cons_cons, List.map_cons]
      rw [ih ys (by simpa using h)]

lemma rateDispatch_lengths (rate : RateFn)
    (hrate : ∀ g1 g2 k1 k2, (rate g1 g2 k1 k2).1.length = g1.length
        ∧ (rate g1 g2 k1 k2).2.length = g2.length)
    (b o : List Rating) (res : ℤ) :
    (rateDispatch rate b o res).1.length = b.length
      ∧ (rateDispatch rate b o res).2.length = o.length := by
  unfold rateDispatch
  split_ifs with h
  · exact hrate b o 0 res
  · exact ⟨(hrate o b 0 1).2, (hrate o b 0 1).1⟩

lemma newRatingsOf_length (rate : RateFn)
    (hrate : ∀ g1 g2 k1 k2, (rate g1 g2 k1 k2).1.length = g1.length
        ∧ (rate g1 g2 k1 k2).2.length = g2.length)
    (bp : ℕ) (res : ℤ) (rs : List Rating) :
    (newRatingsOf rate bp res rs).length = rs.length := by
  unfold newRatingsOf
  rw [List.length_append, (rateDispatch_lengths rate hrate _ _ _).1,
      (rateDispatch_lengths rate hrate _ _ _).2, List.length_take, List.length_drop]
  omega

lemma delKeyZero_none_iff (gs : List (ℕ × List Rating)) :
    delKeyZero gs = none ↔ ∀ p ∈ gs, p.1 ≠ 0 := by
  unfold delKeyZero
  split_ifs with h
  · simp only [List.any_eq_true, decide_eq_true_eq] at h
    obtain ⟨p, hp, hp0⟩ := h
    constructor
    · intro hc; exact absurd hc (by simp)
    · intro hall; exact absurd hp0 (hall p hp)
  · simp only [List.any_eq_true, decide_eq_true_eq, not_exists] at h
    constructor
    · intro _ p hp hp0
      exact h p ⟨hp, hp0⟩
    · intro _; rfl

lemma delKeyZero_some_of_mem (gs : List (ℕ × List Rating))
    (h : ∃ p ∈ gs, p.1 = 0) :
    delKeyZero gs = some (gs.filter (fun p => p.1 ≠ 0)) := by
  have hany : gs.any (fun p => p.1 = 0) = true := by
    simpa [List.any_eq_true] using h
  unfold delKeyZero
  rw [if_pos hany]

lemma delKeyZero_some_eq (gs ks : List (ℕ × List Rating))
    (h : delKeyZero gs = some ks) : ks = gs.filter (fun p => p.1 ≠ 0) := by
  unfold delKeyZero at h
  split_ifs at h with h'
  exact (Option.some_inj.mp h).symm

lemma filter_keys_mem (gs : List (ℕ × List Rating)) (x : ℕ) :
    x ∈ ((gs.filter (fun p => p.1 ≠ 0)).map Prod.fst)
      ↔ x ∈ gs.map Prod.fst ∧ x ≠ 0 := by
  simp only [List.mem_map, List.mem_filter, decide_eq_true_eq]
  constructor
  · rintro ⟨p, ⟨hp, hp0⟩, rfl⟩
    exact ⟨⟨p, hp, rfl⟩, hp0⟩
  · rintro ⟨⟨p, hp, rfl⟩, hx0⟩
    exact ⟨p, ⟨hp, hx0⟩, rfl⟩

lemma writeBackList_get_zero : ∀ (wb : List (ℕ × Rating)) (qs : List Rating),
    (∀ p ∈ wb, p.1 ≠ 0) → (writeBackList qs wb)[0]? = qs[0]? := by
  intro wb
  induction wb with
  | nil => intro qs _; rfl
  | cons p rest ih =>
    intro qs h
    have hstep : writeBackList qs (p :: rest) = writeBackList (qs.set p.1 p.2) rest := rfl
    rw [hstep, ih _ (fun q hq => h q (List.mem_cons_of_mem _ hq))]
    exact List.getElem?_set_ne (h p (List.mem_cons_self _ _))

/-- Unfolding of `processSubmission` past a successful rating lookup. -/
lemma processSubmission_eq_of_lookup (rate : RateFn) (qs : List Rating) (l : ℕ)
    (sub : MatchSubmission) (rs : List Rating)
    (hok : lookupRatings qs sub.rolloutData = .ok rs) :
    processSubmission rate qs (some l) sub =
      match delKeyZero (groupByVersion ((newRatingsOf rate
          (sub.rolloutData.length / 2 + sub.rolloutData.length % 2) sub.result rs).zip
            sub.rolloutData)) with
      | none => .error .missingKeyZero
      | some kept => .ok ⟨writeBackList qs (kept.map (fun p => (p.1, avgRating p.2))),
          kept.map (fun p => (p.1, avgRating p.2)),
          (sub.rolloutData.filter (fun p => p.2 = l)).map Prod.fst⟩ := by
  simp [processSubmission, hok]

/-- Shared success/failure characterization of `processSubmission` for
submissions all of whose versions resolve: with a length-preserving rate
function, either no seat has version 0 and the `del versions[0]` raises, or
some seat has version 0 and processing succeeds, yielding exactly the
latest-version trajectories in submission order and writing back exactly the
non-zero versions present in the submission. -/
lemma processSubmission_cases (rate : RateFn)
    (hrate : ∀ g1 g2 k1 k2, (rate g1 g2 k1 k2).1.length = g1.length
        ∧ (rate g1 g2 k1 k2).2.length = g2.length)
    (qs : List Rating) (l : ℕ) (sub : MatchSubmission)
    (hres : ∀ p ∈ sub.rolloutData, p.2 < qs.length) :
    ((∀ p ∈ sub.rolloutData, p.2 ≠ 0) →
        processSubmission rate qs (some l) sub = .error .missingKeyZero)
    ∧ ((∃ p ∈ sub.rolloutData, p.2 = 0) →
        ∃ r, processSubmission rate qs (some l) sub = .ok r
          ∧ r.yielded = (sub.rolloutData.filter (fun p => p.2 = l)).map Prod.fst
          ∧ ∀ x, x ∈ r.writeback.map Prod.fst
              ↔ (x ∈ sub.rolloutData.map Prod.snd ∧ x ≠ 0)) := by
  obtain ⟨rs, hok, hlen⟩ := lookupRatings_ok_of_inbounds qs sub.rolloutData hres
  have hnlen : (newRatingsOf rate
      (sub.rolloutData.length / 2 + sub.rolloutData.length % 2) sub.result rs).length
      = sub.rolloutData.length := by
    rw [newRatingsOf_length rate hrate, hlen]
  have hkeys : ∀ x, x ∈ (groupByVersion ((newRatingsOf rate
        (sub.rolloutData.length / 2 + sub.rolloutData.length % 2) sub.result rs).zip
          sub.rolloutData)).map Prod.fst
      ↔ x ∈ sub.rolloutData.map Prod.snd := by
    intro x
    rw [groupByVersion_keys, zip_snd_eq _ _ hnlen]
  constructor
  · intro hz
    have hnone : delKeyZero (groupByVersion ((newRatingsOf rate
        (sub.rolloutData.length / 2 + sub.rolloutData.length % 2) sub.result rs).zip
          sub.rolloutData)) = none := by
      rw [delKeyZero_none_iff]
      intro p hp hp0
      have hmem : p.1 ∈ sub.rolloutData.map Prod.snd :=
        (hkeys p.1).mp (List.mem_map_of_mem Prod.fst hp)
      obtain ⟨q, hq, hq1⟩ := List.mem_map.mp hmem
      exact hz q hq (by rw [hq1, hp0])
    rw [processSubmission_eq_of_lookup rate qs l sub rs hok, hnone]
  · intro hz
    have hsome : delKeyZero (groupByVersion ((newRatingsOf rate
        (sub.rolloutData.length / 2 + sub.rolloutData.length % 2) sub.result rs).zip
          sub.rolloutData))
        = some ((groupByVersion ((newRatingsOf rate
            (sub.rolloutData.length / 2 + sub.rolloutData.length % 2) sub.result rs).zip
              sub.rolloutData)).filter (fun p => p.1 ≠ 0)) := by
      apply delKeyZero_some_of_mem
      obtain ⟨q, hq, hq2⟩ := hz
      have hmem : (0 : ℕ) ∈ sub.rolloutData.map Prod.snd := by
        rw [← hq2]
        exact List.mem_map_of_mem Prod.snd hq
      obtain ⟨p, hp, hp1⟩ := List.mem_map.mp ((hkeys 0).mpr hmem)
      exact ⟨p, hp, hp1⟩
    refine ⟨⟨writeBackList qs (((groupByVersion ((newRatingsOf rate
          (sub.rolloutData.length / 2 + sub.rolloutData.length % 2) sub.result rs).zip
            sub.rolloutData)).filter (fun p => p.1 ≠ 0)).map
              (fun p => (p.1, avgRating p.2))),
        ((groupByVersion ((newRatingsOf rate
          (sub.rolloutData.length / 2 + sub.rolloutData.length % 2) sub.result rs).zip
            sub.rolloutData)).filter (fun p => p.1 ≠ 0)).map
              (fun p => (p.1, avgRating p.2)),
        (sub.rolloutData.filter (fun p => p.2 = l)).map Prod.fst⟩, ?_, rfl, ?_⟩
    · rw [processSubmission_eq_of_lookup rate qs l sub rs hok, hsome]
    · intro x
      have hcomp : (Prod.fst ∘ fun p : ℕ × List Rating => (p.1, avgRating p.2))
          = (Prod.fst : ℕ × List Rating → ℕ) := rfl
      rw [List.map_map, hcomp, filter_keys_mem, hkeys x]

lemma tsRate_lengths : ∀ (g1 g2 : List Rating) (k1 k2 : ℤ),
    (tsRate g1 g2 k1 k2).1.length = g1.length
      ∧ (tsRate g1 g2 k1 k2).2.length = g2.length := by
  intro g1 g2 k1 k2
  unfold tsRate
  split_ifs <;> simp

/-! ### C1: a missing rating is fatal, not dropped-and-continued -/

/-- C1 counterexample: the first queued submission references version 5, which
has no stored Rating; the second is fully valid and holds current-version
trajectories (102 and 103, version 0 = latest).  The claimed behavior (drop
the offending submission, continue, yield 102 and 103) does not happen: the
lookup error propagates, the whole run aborts, and nothing is yielded. -/
theorem C1_counterexample :
    processAll tsRate [⟨0, 1⟩] (some 0)
      [⟨[(100, 5), (101, 0)], 11, 1, 1⟩, ⟨[(102, 0), (103, 0)], 0, 0, 1⟩]
      = .error (.missingRating 5) := rfl

/-- C1 amended: `generate_rollouts` resolves each version by list index into
`QUALITIES`; when a submission holds a version with no corresponding Rating,
the unpickling of the nil `LINDEX` raises, the error propagates out of the
generator (no write-back, no yield), and no subsequent submission is
processed — the offending submission is not dropped-and-skipped. -/
theorem C1_missing_rating_fatal (rate : RateFn) (qs : List Rating) (l : ℕ)
    (sub : MatchSubmission) (rest : List MatchSubmission)
    (h : ∃ p ∈ sub.rolloutData, qs.length ≤ p.2) :
    ∃ v, processSubmission rate qs (some l) sub = .error (.missingRating v)
      ∧ processAll rate qs (some l) (sub :: rest) = .error (.missingRating v) := by
  obtain ⟨v, _, herr⟩ := lookupRatings_error_of_oob qs sub.rolloutData h
  have hps : processSubmission rate qs (some l) sub = .error (.missingRating v) := by
    simp [processSubmission, herr]
  exact ⟨v, hps, by simp [processAll, hps]⟩

/-- Witness for C1's amended theorem at a concrete store and submission. -/
theorem C1_missing_rating_fatal_witness :
    ∃ v, processSubmission tsRate [⟨0, 1⟩] (some 0) ⟨[(100, 5)], 0, 0, 1⟩
        = .error (.missingRating v)
      ∧ processAll tsRate [⟨0, 1⟩] (some 0) [⟨[(100, 5)], 0, 0, 1⟩]
        = .error (.missingRating v) :=
  C1_missing_rating_fatal tsRate [⟨0, 1⟩] 0 ⟨[(100, 5)], 0, 0, 1⟩ []
    ⟨(100, 5), by simp, by decide⟩

/-! ### C7: the unconditional `del versions[0]` -/

/-- C7: for every submission all of whose versions resolve, the per-submission
processing raises the key-lookup error of the unconditional `del versions[0]`
— performing no write-back and yielding nothing, since the error aborts before
both — exactly when no RolloutRecord has version 0; the write-back phase is
reached only when at least one seat played version 0. -/
theorem C7_keyzero_iff (rate : RateFn)
    (hrate : ∀ g1 g2 k1 k2, (rate g1 g2 k1 k2).1.length = g1.length
        ∧ (rate g1 g2 k1 k2).2.length = g2.length)
    (qs : List Rating) (l : ℕ) (sub : MatchSubmission)
    (hres : ∀ p ∈ sub.rolloutData, p.2 < qs.length) :
    ((processSubmission rate qs (some l) sub = .error .missingKeyZero)
        ↔ ∀ p ∈ sub.rolloutData, p.2 ≠ 0)
    ∧ (∀ r : SubResult, processSubmission rate qs (some l) sub = .ok r →
        ∃ p ∈ sub.rolloutData, p.2 = 0) := by
  have hc := processSubmission_cases rate hrate qs l sub hres
  by_cases hz : ∀ p ∈ sub.rolloutData, p.2 ≠ 0
  · have herr := hc.1 hz
    refine ⟨⟨fun _ => hz, fun _ => herr⟩, ?_⟩
    intro r hr
    rw [herr] at hr
    cases hr
  · push_neg at hz
    obtain ⟨p0, hp0, hp0z⟩ := hz
    obtain ⟨r, hok, _, _⟩ := hc.2 ⟨p0, hp0, hp0z⟩
    refine ⟨⟨?_, ?_⟩, ?_⟩
    · intro herr
      rw [hok] at herr
      cases herr
    · intro hall
      exact absurd hp0z (hall p0 hp0)
    · intro r' _
      exact ⟨p0, hp0, hp0z⟩

/-- Witness for C7: a submission whose only seat played version 0 does not
raise the key error. -/
theorem C7_keyzero_iff_witness :
    processSubmission tsRate [⟨0, 1⟩] (some 0) ⟨[(100, 0)], 0, 0, 0⟩
      ≠ .error .missingKeyZero := by
  intro herr
  have h := (C7_keyzero_iff tsRate tsRate_lengths [⟨0, 1⟩] 0
      ⟨[(100, 0)], 0, 0, 0⟩ (by decide)).1.mp herr
  exact absurd rfl (h (100, 0) (by simp))

/-! ### C2: the staleness filter -/

/-- C2 counterexample: the submission pairs a current-version seat (trajectory
100, version 2 = latest) with a stale seat (version 1); both versions resolve.
The claim says trajectory 100 is yielded; instead `del versions[0]` raises
(no seat played version 0) and the submission yields nothing. -/
theorem C2_counterexample :
    processSubmission tsRate [⟨0, 1⟩, ⟨0, 1⟩, ⟨0, 1⟩] (some 2)
      ⟨[(100, 2), (101, 1)], 0, 0, 1⟩ = .error .missingKeyZero := rfl

/-- C2 amended: for every dequeued submission all of whose versions resolve
and in which at least one seat played version 0 (so that processing
completes), `generate_rollouts` yields exactly the trajectories whose version
equals the latest published version, in submission order, and the write-back
covers exactly the non-zero versions of all seats — stale seats included. -/
theorem C2_staleness_filter (rate : RateFn)
    (hrate : ∀ g1 g2 k1 k2, (rate g1 g2 k1 k2).1.length = g1.length
        ∧ (rate g1 g2 k1 k2).2.length = g2.length)
    (qs : List Rating) (l : ℕ) (sub : MatchSubmission)
    (hres : ∀ p ∈ sub.rolloutData, p.2 < qs.length)
    (hv0 : ∃ p ∈ sub.rolloutData, p.2 = 0) :
    ∃ r, processSubmission rate qs (some l) sub = .ok r
      ∧ r.yielded = (sub.rolloutData.filter (fun p => p.2 = l)).map Prod.fst
      ∧ ∀ x, x ∈ r.writeback.map Prod.fst
          ↔ (x ∈ sub.rolloutData.map Prod.snd ∧ x ≠ 0) :=
  (processSubmission_cases rate hrate qs l sub hres).2 hv0

/-- Witness for C2's amended theorem: latest version 2; the current seat's
trajectory 100 is yielded, the stale seat (version 0) is not. -/
theorem C2_staleness_filter_witness :
    ∃ r, processSubmission tsRate [⟨0, 1⟩, ⟨0, 1⟩, ⟨0, 1⟩] (some 2)
        ⟨[(100, 2), (101, 0)], 0, 0, 0⟩ = .ok r
      ∧ r.yielded = [100] := by
  obtain ⟨r, hok, hy, _⟩ := C2_staleness_filter tsRate tsRate_lengths
    [⟨0, 1⟩, ⟨0, 1⟩, ⟨0, 1⟩] 2 ⟨[(100, 2), (101, 0)], 0, 0, 0⟩
    (by decide) ⟨(101, 0), by simp, rfl⟩
  refine ⟨r, hok, ?_⟩
  rw [hy]
  rfl

/-! ### C6: version 0 is never written back -/

/-- C6: whenever a submission is processed to completion, no entry of the
write-back map targets version 0, and entry 0 of the stored rating list is
unchanged by the write-back (the baseline rating is a fixed anchor). -/
theorem C6_no_version_zero (rate : RateFn) (qs : List Rating) (lOpt : Option ℕ)
    (sub : MatchSubmission) (r : SubResult)
    (h : processSubmission rate qs lOpt sub = .ok r) :
    (∀ p ∈ r.writeback, p.1 ≠ 0) ∧ r.newQualities[0]? = qs[0]? := by
  cases lOpt with
  | none => simp [processSubmission] at h
  | some l =>
    cases hlk : lookupRatings qs sub.rolloutData with
    | error e => simp [processSubmission, hlk] at h
    | ok rs =>
      rw [processSubmission_eq_of_lookup rate qs l sub rs hlk] at h
      cases hd : delKeyZero (groupByVersion ((newRatingsOf rate
          (sub.rolloutData.length / 2 + sub.rolloutData.length % 2) sub.result rs).zip
            sub.rolloutData)) with
      | none => rw [hd] at h; cases h
      | some kept =>
        rw [hd] at h
        injection h with h
        subst h
        have hkept := delKeyZero_some_eq _ _ hd
        have hall : ∀ p ∈ kept.map (fun p => (p.1, avgRating p.2)), p.1 ≠ 0 := by
          intro p hp
          obtain ⟨q, hq, rfl⟩ := List.mem_map.mp hp
          rw [hkept] at hq
          exact of_decide_eq_true (List.mem_filter.mp hq).2
        exact ⟨hall, writeBackList_get_zero _ qs hall⟩

/-- Witness for C6: a completed concrete run leaves the baseline entry 0 of
the rating list untouched. -/
theorem C6_no_version_zero_witness :
    ∃ r, processSubmission tsRate [⟨0, 1⟩, ⟨0, 1⟩] (some 1)
        ⟨[(100, 1), (101, 0)], 0, 0, 1⟩ = .ok r
      ∧ r.newQualities[0]? = ([⟨0, 1⟩, ⟨0, 1⟩] : List Rating)[0]? := by
  obtain ⟨r, hok, _, _⟩ := (processSubmission_cases tsRate tsRate_lengths
    [⟨0, 1⟩, ⟨0, 1⟩] 1 ⟨[(100, 1), (101, 0)], 0, 0, 1⟩ (by decide)).2
    ⟨(101, 0), by simp, rfl⟩
  exact ⟨r, hok, (C6_no_version_zero tsRate [⟨0, 1⟩, ⟨0, 1⟩] (some 1)
    ⟨[(100, 1), (101, 0)], 0, 0, 1⟩ r hok).2⟩

end RocketLearn
